import Mathlib

/-!
Verification of the chunking, retry and orchestration logic of
`src/main.rs` (a command-line text translator).

A Rust `&str` is modelled as a `List Char` of Unicode scalar values;
`byteLen` is its UTF-8 byte length, matching Rust's `str::len`.  Byte-indexed
slicing (`remaining[..n]`, `str::split_at`) is partial in Rust: it panics when
the index is not a character boundary.  The model returns `none` exactly in
that case, so `none` propagated to a result means the program panics.
-/

/-- Model of a Rust string slice: the list of its Unicode scalar values. -/
abbrev RStr := List Char

/-- Rust `str::len`: the UTF-8 byte length of the string. -/
def byteLen (s : RStr) : Nat := (s.map Char.utf8Size).sum

/-- Rust `char::is_whitespace`: the Unicode `White_Space` property. -/
def rustIsWhitespace (c : Char) : Bool :=
  (0x9 ≤ c.toNat && c.toNat ≤ 0xD) || c.toNat == 0x20 || c.toNat == 0x85 ||
    c.toNat == 0xA0 || c.toNat == 0x1680 ||
    (0x2000 ≤ c.toNat && c.toNat ≤ 0x200A) || c.toNat == 0x2028 ||
    c.toNat == 0x2029 || c.toNat == 0x202F || c.toNat == 0x205F ||
    c.toNat == 0x3000

/-- Rust `str::trim_start`. -/
def trimStart (s : RStr) : RStr := s.dropWhile rustIsWhitespace

/-- Rust `str::trim_end`. -/
def trimEnd (s : RStr) : RStr := (s.reverse.dropWhile rustIsWhitespace).reverse

/-- Rust `str::trim`. -/
def trim (s : RStr) : RStr := trimEnd (trimStart s)

/-- Rust `content.split("\n\n")`: non-overlapping, left to right
(`main.rs` line 136). -/
def splitParas : RStr → List RStr
  | '\n' :: '\n' :: rest => [] :: splitParas rest
  | c :: rest =>
    match splitParas rest with
    | p :: ps => (c :: p) :: ps
    | [] => [[c]]
  | [] => [[]]

/-- Rust byte slicing `s[..n]`: the prefix of `s` holding exactly `n` bytes,
or `none` when `n` falls strictly inside a character (Rust panics there). -/
def byteTake : Nat → RStr → Option RStr
  | 0, _ => some []
  | _ + 1, [] => none
  | n + 1, c :: cs =>
    if c.utf8Size ≤ n + 1 then
      Option.map (fun w => c :: w) (byteTake (n + 1 - c.utf8Size) cs)
    else none

/-- Rust `str::split_at n`: both halves of the byte split, or `none` when `n`
is not a character boundary (Rust panics there). -/
def byteSplitAt : Nat → RStr → Option (RStr × RStr)
  | 0, s => some ([], s)
  | _ + 1, [] => none
  | n + 1, c :: cs =>
    if c.utf8Size ≤ n + 1 then
      Option.map (fun pr => (c :: pr.1, pr.2)) (byteSplitAt (n + 1 - c.utf8Size) cs)
    else none

/-- Rust `window.rfind(' ')`: the byte index of the last ASCII space of the
string, `none` when it holds no space (`main.rs` line 157). -/
def lastSpaceByteIdx : RStr → Option Nat
  | [] => none
  | c :: cs =>
    match lastSpaceByteIdx cs with
    | some i => some (c.utf8Size + i)
    | none => if c = ' ' then some 0 else none

theorem byteSplitAt_snd_length_le (s : RStr) :
    ∀ n p q, byteSplitAt n s = some (p, q) → q.length ≤ s.length := by
  induction s with
  | nil =>
    intro n p q h
    cases n with
    | zero => simp [byteSplitAt] at h; simp [h.2]
    | succ m => simp [byteSplitAt] at h
  | cons c cs ih =>
    intro n p q h
    cases n with
    | zero =>
      simp [byteSplitAt] at h
      simp [h.2]
    | succ m =>
      simp only [byteSplitAt] at h
      by_cases hc : c.utf8Size ≤ m + 1
      · rw [if_pos hc] at h
        match hrec : byteSplitAt (m + 1 - c.utf8Size) cs with
        | none => rw [hrec] at h; simp at h
        | some pr =>
          rw [hrec] at h
          simp at h
          have := ih (m + 1 - c.utf8Size) pr.1 pr.2 (by rw [hrec])
          simp [← h.2]
          omega
      · rw [if_neg hc] at h; simp at h

theorem byteSplitAt_succ_snd_le (n : Nat) (c : Char) (cs : RStr) (p q : RStr)
    (h : byteSplitAt (n + 1) (c :: cs) = some (p, q)) : q.length ≤ cs.length := by
  simp only [byteSplitAt] at h
  by_cases hc : c.utf8Size ≤ n + 1
  · rw [if_pos hc] at h
    match hrec : byteSplitAt (n + 1 - c.utf8Size) cs with
    | none => rw [hrec] at h; simp at h
    | some pr =>
      rw [hrec] at h
      simp at h
      have hle := byteSplitAt_snd_length_le cs (n + 1 - c.utf8Size) pr.1 pr.2 (by rw [hrec])
      rw [← h.2]
      exact hle
  · rw [if_neg hc] at h; simp at h

theorem trimStart_length_le (s : RStr) : (trimStart s).length ≤ s.length := by
  induction s with
  | nil => simp [trimStart]
  | cons c cs ih =>
    by_cases h : rustIsWhitespace c
    · simp [trimStart, List.dropWhile, h] at ih ⊢
      omega
    · simp [trimStart, List.dropWhile, h]

theorem byteTake_cons (n : Nat) (c : Char) (cs : RStr) (w : RStr)
    (hn : n ≠ 0) (h : byteTake n (c :: cs) = some w) : ∃ w', w = c :: w' := by
  cases n with
  | zero => exact absurd rfl hn
  | succ m =>
    simp only [byteTake] at h
    by_cases hc : c.utf8Size ≤ m + 1
    · rw [if_pos hc] at h
      match hrec : byteTake (m + 1 - c.utf8Size) cs with
      | none => rw [hrec] at h; simp at h
      | some w0 => rw [hrec] at h; simp at h; exact ⟨w0, h.symm⟩
    · rw [if_neg hc] at h; simp at h

theorem lastSpaceByteIdx_zero (w : RStr) (h : lastSpaceByteIdx w = some 0) :
    ∃ t, w = ' ' :: t := by
  cases w with
  | nil => simp [lastSpaceByteIdx] at h
  | cons c cs =>
    simp only [lastSpaceByteIdx] at h
    match hrec : lastSpaceByteIdx cs with
    | some j =>
      rw [hrec] at h
      simp at h
      have := Char.utf8Size_pos c
      omega
    | none =>
      rw [hrec] at h
      by_cases hc : c = ' '
      · exact ⟨cs, by rw [hc]⟩
      · rw [if_neg hc] at h; simp at h

theorem forceSplit_dec_space (max : Nat) (hpos : 0 < max) (c : Char) (cs window : RStr)
    (i : Nat) (piece rest : RStr)
    (hT : byteTake max (c :: cs) = some window)
    (hS : lastSpaceByteIdx window = some i)
    (hSp : byteSplitAt i (c :: cs) = some (piece, rest)) :
    (trimStart rest).length < (c :: cs).length := by
  cases i with
  | zero =>
    obtain ⟨t, ht⟩ := lastSpaceByteIdx_zero window hS
    obtain ⟨w', hw'⟩ := byteTake_cons max c cs window (by omega) hT
    have hc : c = ' ' := by rw [ht] at hw'; exact (List.cons.injEq _ _ _ _ ▸ hw').1.symm
    have h0 : byteSplitAt 0 (c :: cs) = some ([], c :: cs) := rfl
    rw [h0] at hSp
    have hrest : rest = c :: cs := by
      have := (Option.some.injEq _ _).mp hSp
      exact ((Prod.mk.injEq _ _ _ _ ▸ this).2).symm
    rw [hrest, hc]
    have heq : trimStart (' ' :: cs) = trimStart cs := by
      simp [trimStart, List.dropWhile, rustIsWhitespace]
    rw [heq]
    have := trimStart_length_le cs
    simp only [List.length_cons]
    omega
  | succ m =>
    have := byteSplitAt_succ_snd_le m c cs piece rest hSp
    have := trimStart_length_le rest
    simp only [List.length_cons]
    omega

theorem forceSplit_dec_nospace (max : Nat) (hpos : 0 < max) (c : Char) (cs : RStr)
    (piece rest : RStr) (hSp : byteSplitAt max (c :: cs) = some (piece, rest)) :
    (trimStart rest).length < (c :: cs).length := by
  cases max with
  | zero => omega
  | succ m =>
    have := byteSplitAt_succ_snd_le m c cs piece rest hSp
    have := trimStart_length_le rest
    simp only [List.length_cons]
    omega

/-- Force-splitting of one oversized paragraph: the `while !remaining.is_empty()`
loop of `main.rs` lines 151-162.  Each round slices the window
`remaining[..MAX_CHUNK_SIZE]` (`none` = Rust panic at a non-boundary index),
cuts at the last space of the window when one exists and at exactly `maxSize`
otherwise, then drops leading whitespace from the rest.  `hpos` reflects that
the program only ever calls this with `MAX_CHUNK_SIZE = 4500 > 0` (with
`maxSize = 0` the Rust loop would not terminate). -/
def forceSplit (maxSize : Nat) (hpos : 0 < maxSize) : RStr → Option (List RStr)
  | [] => some []
  | c :: cs =>
    if byteLen (c :: cs) ≤ maxSize then some [c :: cs]
    else
      match hT : byteTake maxSize (c :: cs) with
      | none => none
      | some window =>
        match hS : lastSpaceByteIdx window with
        | some i =>
          match hSp : byteSplitAt i (c :: cs) with
          | none => none
          | some (piece, rest) =>
            Option.map (fun ps => piece :: ps) (forceSplit maxSize hpos (trimStart rest))
        | none =>
          match hSp : byteSplitAt maxSize (c :: cs) with
          | none => none
          | some (piece, rest) =>
            Option.map (fun ps => piece :: ps) (forceSplit maxSize hpos (trimStart rest))
termination_by r => r.length
decreasing_by
  · exact forceSplit_dec_space maxSize hpos c cs window i piece rest hT hS hSp
  · exact forceSplit_dec_nospace maxSize hpos c cs piece rest hSp

/-- Byte ceiling for one chunk (`main.rs` line 8). -/
def MAX_CHUNK_SIZE : Nat := 4500

/-- Processing of one non-blank paragraph by the accumulation loop of
`main.rs` lines 140-175.  State is `(chunks, current_chunk)`.  `none` means
the force-split panicked. -/
def chunkStep (maxSize : Nat) (hpos : 0 < maxSize) (st : List RStr × RStr)
    (p : RStr) : Option (List RStr × RStr) :=
  if byteLen p > maxSize then
    Option.map
      (fun pieces => ((if st.2.isEmpty then st.1 else st.1 ++ [st.2]) ++ pieces, []))
      (forceSplit maxSize hpos p)
  else if byteLen st.2 + byteLen p + 2 > maxSize then
    some (st.1 ++ [st.2], p)
  else
    some (st.1, if st.2.isEmpty then p else st.2 ++ '\n' :: '\n' :: p)

/-- Folding `chunkStep` over the paragraph list (`main.rs` lines 140-175). -/
def chunkParas (maxSize : Nat) (hpos : 0 < maxSize) :
    List RStr → List RStr × RStr → Option (List RStr × RStr)
  | [], st => some st
  | p :: ps, st =>
    match chunkStep maxSize hpos st p with
    | none => none
    | some st' => chunkParas maxSize hpos ps st'

/-- The whole chunking step of `main.rs` lines 136-178: split on `"\n\n"`,
drop blank paragraphs, accumulate, and flush the final non-empty buffer.
`none` means the program panics while chunking. -/
def chunk (maxSize : Nat) (hpos : 0 < maxSize) (content : RStr) :
    Option (List RStr) :=
  let paragraphs := (splitParas content).filter (fun p => !(trim p).isEmpty)
  match chunkParas maxSize hpos paragraphs ([], []) with
  | none => none
  | some (chunks, current) =>
    some (if current.isEmpty then chunks else chunks ++ [current])

/-- Retry budget of `translate_chunk` (`main.rs` line 57). -/
def MAX_RETRIES : Nat := 3

/-- Outcome of reading one HTTP response: its status code, and its body text
(`Except.error` = the body could not be read). -/
structure Resp where
  status : Nat
  body : Except Unit RStr


/-- Result of one `client.post(...).send()` call: a connection-level failure,
or a response. -/
inductive SendResult where
  | connErr : SendResult
  | ok : Resp → SendResult


/-- Causes recorded in `last_error` on a retryable failure
(`main.rs` lines 79-82, 88-92, 112-117). -/
inductive RetryCause where
  | conn : RetryCause
  | bodyRead : RetryCause
  | badStatus : Nat → RetryCause


/-- Terminal failures of `translate_chunk`: a JSON decode failure
(line 102), a 4xx rejection (line 111), or the retry budget exhausted with
the last recorded error (line 120; `none` models the `unwrap_or_else`
default that is never reached). -/
inductive TransFail where
  | decodeFail : RStr → TransFail
  | clientRejection : Nat → TransFail
  | exhausted : Option RetryCause → TransFail


/-- Observable outcome of one `translate_chunk` call: its result, how many
attempts were started, and the backoff delays slept (in seconds, in order). -/
structure TransOutcome where
  result : Except TransFail RStr
  attemptsMade : Nat
  sleeps : List Nat


/-- Loop body of `translate_chunk` (`main.rs` lines 60-118), iterating over
the remaining attempt numbers of `for attempt in 0..=MAX_RETRIES`.  `decode`
models `serde_json::from_str::<TranslationResponse>` on the body text; `env`
gives each attempt's network outcome.  Before every attempt except attempt 0
the loop sleeps `30 * 2 ^ attempt` seconds (line 63). -/
def translate_loop (decode : RStr → Option RStr) (env : Nat → SendResult) :
    List Nat → Option RetryCause → Nat → List Nat → TransOutcome
  | [], lastError, used, sleeps => ⟨.error (.exhausted lastError), used, sleeps⟩
  | attempt :: rest, lastError, used, sleeps =>
    let sleeps' := if 0 < attempt then sleeps ++ [30 * 2 ^ attempt] else sleeps
    match env attempt with
    | .connErr => translate_loop decode env rest (some .conn) (used + 1) sleeps'
    | .ok r =>
      if 200 ≤ r.status ∧ r.status ≤ 299 then
        match r.body with
        | .error _ => translate_loop decode env rest (some .bodyRead) (used + 1) sleeps'
        | .ok bodyText =>
          match decode bodyText with
          | some t => ⟨.ok t, used + 1, sleeps'⟩
          | none => ⟨.error (.decodeFail bodyText), used + 1, sleeps'⟩
      else if 400 ≤ r.status ∧ r.status ≤ 499 then
        ⟨.error (.clientRejection r.status), used + 1, sleeps'⟩
      else
        translate_loop decode env rest (some (.badStatus r.status)) (used + 1) sleeps'

/-- Model of `translate_chunk` (`main.rs` lines 49-121): run the attempt loop
over attempts `0..=MAX_RETRIES` with no recorded error yet. -/
def translate_chunk (decode : RStr → Option RStr) (env : Nat → SendResult) :
    TransOutcome :=
  translate_loop decode env (List.range (MAX_RETRIES + 1)) none 0 []

/-- Classification of one attempt's network outcome, mirroring the branch
structure of `main.rs` lines 77-117. -/
inductive Classified where
  | success : RStr → Classified
  | retry : RetryCause → Classified
  | terminal : TransFail → Classified


/-- Classify one attempt's outcome exactly as the loop body does. -/
def classify (decode : RStr → Option RStr) : SendResult → Classified
  | .connErr => .retry .conn
  | .ok r =>
    if 200 ≤ r.status ∧ r.status ≤ 299 then
      match r.body with
      | .error _ => .retry .bodyRead
      | .ok bodyText =>
        match decode bodyText with
        | some t => .success t
        | none => .terminal (.decodeFail bodyText)
    else if 400 ≤ r.status ∧ r.status ≤ 499 then
      .terminal (.clientRejection r.status)
    else
      .retry (.badStatus r.status)

/-- What the run of `main` produces at its output stage: nothing (early exit
or failure), a file write, or a console print framed by the banner. -/
inductive OutputAction where
  | noOutput : OutputAction
  | fileWrite : RStr → OutputAction
  | console : RStr → OutputAction


/-- Observable outcome of one run of `main`: whether it exits successfully,
how many segments were submitted to the translation client, and the output
action performed. -/
structure MainOutcome where
  okExit : Bool
  networkCalls : Nat
  output : OutputAction


/-- Rust `content.replace("\r\n", "\n")` (`main.rs` line 129):
non-overlapping, left to right. -/
def replaceCRLF : RStr → RStr
  | '\r' :: '\n' :: rest => '\n' :: replaceCRLF rest
  | c :: rest => c :: replaceCRLF rest
  | [] => []

/-- Rust `translated_chunks.join("\n\n")` (`main.rs` line 214). -/
def joinNN : List RStr → RStr
  | [] => []
  | [x] => x
  | x :: xs => x ++ '\n' :: '\n' :: joinNN xs

/-- The sequential translation loop of `main.rs` lines 198-211: segment `i`
is submitted only after segments `0..i` succeeded; the first failure aborts.
Returns how many segments were submitted and either the failure or the
ordered translated list. -/
def translateAll (oracle : Nat → Except TransFail RStr) :
    Nat → List RStr → List RStr → Nat × Except TransFail (List RStr)
  | i, [], acc => (i, .ok acc)
  | i, _ :: rest, acc =>
    match oracle i with
    | .error e => (i + 1, .error e)
    | .ok t => translateAll oracle (i + 1) rest (acc ++ [t])

/-- Model of `main` (`main.rs` lines 124-229): normalize line endings,
short-circuit on empty content, chunk, translate sequentially, and write the
joined result to the output file or print it to the console.  `oracle i`
abstracts the translation outcome of segment `i`.  `none` from `chunk`
(a chunking panic) aborts before any network call. -/
def runMain (hasOutputFile : Bool) (oracle : Nat → Except TransFail RStr)
    (raw : RStr) : MainOutcome :=
  let content := replaceCRLF raw
  if content.isEmpty then ⟨true, 0, .noOutput⟩
  else
    match chunk MAX_CHUNK_SIZE (by decide) content with
    | none => ⟨false, 0, .noOutput⟩
    | some chunks =>
      match translateAll oracle 0 chunks [] with
      | (n, .error _) => ⟨false, n, .noOutput⟩
      | (n, .ok ts) =>
        ⟨true, n, if hasOutputFile then .fileWrite (joinNN ts) else .console (joinNN ts)⟩

theorem forceSplit_nil (max : Nat) (hpos : 0 < max) : forceSplit max hpos [] = some [] := by
  rw [forceSplit]

theorem forceSplit_le (max : Nat) (hpos : 0 < max) (c : Char) (cs : RStr)
    (h : byteLen (c :: cs) ≤ max) : forceSplit max hpos (c :: cs) = some [c :: cs] := by
  rw [forceSplit, if_pos h]

theorem forceSplit_take_panic (max : Nat) (hpos : 0 < max) (c : Char) (cs : RStr)
    (h1 : ¬ byteLen (c :: cs) ≤ max) (h2 : byteTake max (c :: cs) = none) :
    forceSplit max hpos (c :: cs) = none := by
  rw [forceSplit, if_neg h1]
  split
  · rfl
  · rename_i window heq
    rw [h2] at heq
    exact absurd heq (by simp)

theorem forceSplit_space (max : Nat) (hpos : 0 < max) (c : Char) (cs : RStr)
    (window : RStr) (i : Nat) (piece rest : RStr)
    (h1 : ¬ byteLen (c :: cs) ≤ max) (h2 : byteTake max (c :: cs) = some window)
    (h3 : lastSpaceByteIdx window = some i)
    (h4 : byteSplitAt i (c :: cs) = some (piece, rest)) :
    forceSplit max hpos (c :: cs) =
      Option.map (fun ps => piece :: ps) (forceSplit max hpos (trimStart rest)) := by
  rw [forceSplit, if_neg h1]
  split
  · rename_i heq; rw [h2] at heq; exact absurd heq (by simp)
  · rename_i window' heq
    rw [h2] at heq
    injection heq with heq
    subst heq
    split
    · rename_i i' heq3
      rw [h3] at heq3
      injection heq3 with heq3
      subst heq3
      split
      · rename_i heq4; rw [h4] at heq4; exact absurd heq4 (by simp)
      · rename_i piece' rest' heq4
        rw [h4] at heq4
        injection heq4 with heq4
        rw [show piece' = piece from by injection heq4 with a b; exact a.symm,
            show rest' = rest from by injection heq4 with a b; exact b.symm]
    · rename_i heq3
      rw [h3] at heq3
      exact absurd heq3 (by simp)

theorem forceSplit_nospace (max : Nat) (hpos : 0 < max) (c : Char) (cs : RStr)
    (window : RStr) (piece rest : RStr)
    (h1 : ¬ byteLen (c :: cs) ≤ max) (h2 : byteTake max (c :: cs) = some window)
    (h3 : lastSpaceByteIdx window = none)
    (h4 : byteSplitAt max (c :: cs) = some (piece, rest)) :
    forceSplit max hpos (c :: cs) =
      Option.map (fun ps => piece :: ps) (forceSplit max hpos (trimStart rest)) := by
  rw [forceSplit, if_neg h1]
  split
  · rename_i heq; rw [h2] at heq; exact absurd heq (by simp)
  · rename_i window' heq
    rw [h2] at heq
    injection heq with heq
    subst heq
    split
    · rename_i i' heq3
      rw [h3] at heq3
      exact absurd heq3 (by simp)
    · split
      · rename_i heq4; rw [h4] at heq4; exact absurd heq4 (by simp)
      · rename_i piece' rest' heq4
        rw [h4] at heq4
        injection heq4 with heq4
        rw [show piece' = piece from by injection heq4 with a b; exact a.symm,
            show rest' = rest from by injection heq4 with a b; exact b.symm]

theorem byteLen_cons (c : Char) (cs : RStr) :
    byteLen (c :: cs) = c.utf8Size + byteLen cs := by
  simp [byteLen]

theorem byteLen_append (a b : RStr) : byteLen (a ++ b) = byteLen a + byteLen b := by
  simp [byteLen]

theorem byteLen_pos (s : RStr) (h : s ≠ []) : 0 < byteLen s := by
  cases s with
  | nil => exact absurd rfl h
  | cons c cs =>
    rw [byteLen_cons]
    have := Char.utf8Size_pos c
    omega

theorem byteTake_byteLen (s : RStr) :
    ∀ n w, byteTake n s = some w → byteLen w = n := by
  induction s with
  | nil =>
    intro n w h
    cases n with
    | zero => simp [byteTake] at h; simp [h, byteLen]
    | succ m => simp [byteTake] at h
  | cons c cs ih =>
    intro n w h
    cases n with
    | zero => simp [byteTake] at h; simp [h, byteLen]
    | succ m =>
      simp only [byteTake] at h
      by_cases hc : c.utf8Size ≤ m + 1
      · rw [if_pos hc] at h
        match hrec : byteTake (m + 1 - c.utf8Size) cs with
        | none => rw [hrec] at h; simp at h
        | some w0 =>
          rw [hrec] at h
          simp at h
          have := ih (m + 1 - c.utf8Size) w0 hrec
          rw [← h, byteLen_cons]
          omega
      · rw [if_neg hc] at h; simp at h

theorem byteSplitAt_parts (s : RStr) :
    ∀ n p q, byteSplitAt n s = some (p, q) → s = p ++ q ∧ byteLen p = n := by
  induction s with
  | nil =>
    intro n p q h
    cases n with
    | zero =>
      simp [byteSplitAt] at h
      simp [h.1, h.2, byteLen]
    | succ m => simp [byteSplitAt] at h
  | cons c cs ih =>
    intro n p q h
    cases n with
    | zero =>
      simp [byteSplitAt] at h
      simp [h.1, ← h.2, byteLen]
    | succ m =>
      simp only [byteSplitAt] at h
      by_cases hc : c.utf8Size ≤ m + 1
      · rw [if_pos hc] at h
        match hrec : byteSplitAt (m + 1 - c.utf8Size) cs with
        | none => rw [hrec] at h; simp at h
        | some pr =>
          rw [hrec] at h
          simp at h
          obtain ⟨hp, hq⟩ := h
          obtain ⟨hcs, hlen⟩ := ih (m + 1 - c.utf8Size) pr.1 pr.2 (by rw [hrec])
          constructor
          · rw [← hp, ← hq, hcs]; rfl
          · rw [← hp, byteLen_cons, hlen]; omega
      · rw [if_neg hc] at h; simp at h

theorem byteTake_of_byteSplitAt (s : RStr) :
    ∀ n p q, byteSplitAt n s = some (p, q) → byteTake n s = some p := by
  induction s with
  | nil =>
    intro n p q h
    cases n with
    | zero => simp [byteSplitAt] at h; simp [byteTake, h.1]
    | succ m => simp [byteSplitAt] at h
  | cons c cs ih =>
    intro n p q h
    cases n with
    | zero => simp [byteSplitAt] at h; simp [byteTake, h.1]
    | succ m =>
      simp only [byteSplitAt] at h
      by_cases hc : c.utf8Size ≤ m + 1
      · rw [if_pos hc] at h
        match hrec : byteSplitAt (m + 1 - c.utf8Size) cs with
        | none => rw [hrec] at h; simp at h
        | some pr =>
          rw [hrec] at h
          simp at h
          have := ih (m + 1 - c.utf8Size) pr.1 pr.2 (by rw [hrec])
          simp only [byteTake, if_pos hc, this]
          rw [← h.1]
          rfl
      · rw [if_neg hc] at h; simp at h

theorem byteSplitAt_of_byteTake (s : RStr) :
    ∀ n w, byteTake n s = some w → ∃ u, byteSplitAt n s = some (w, u) ∧ s = w ++ u := by
  induction s with
  | nil =>
    intro n w h
    cases n with
    | zero => simp [byteTake] at h; exact ⟨[], by simp [byteSplitAt, ← h]⟩
    | succ m => simp [byteTake] at h
  | cons c cs ih =>
    intro n w h
    cases n with
    | zero => simp [byteTake] at h; exact ⟨c :: cs, by simp [byteSplitAt, ← h]⟩
    | succ m =>
      simp only [byteTake] at h
      by_cases hc : c.utf8Size ≤ m + 1
      · rw [if_pos hc] at h
        match hrec : byteTake (m + 1 - c.utf8Size) cs with
        | none => rw [hrec] at h; simp at h
        | some w0 =>
          rw [hrec] at h
          simp at h
          obtain ⟨u, hu, hcs⟩ := ih (m + 1 - c.utf8Size) w0 hrec
          refine ⟨u, ?_, ?_⟩
          · simp only [byteSplitAt, if_pos hc, hu]
            rw [← h]
            rfl
          · rw [← h, hcs]; rfl
      · rw [if_neg hc] at h; simp at h

theorem lastSpaceByteIdx_none (w : RStr) :
    lastSpaceByteIdx w = none → ' ' ∉ w := by
  induction w with
  | nil => intro _ hmem; simp at hmem
  | cons c cs ih =>
    intro h hmem
    simp only [lastSpaceByteIdx] at h
    match hrec : lastSpaceByteIdx cs with
    | some j => rw [hrec] at h; simp at h
    | none =>
      rw [hrec] at h
      by_cases hc : c = ' '
      · rw [if_pos hc] at h; simp at h
      · rw [if_neg hc] at h
        rcases List.mem_cons.mp hmem with h1 | h1
        · exact hc h1.symm
        · exact ih hrec h1

theorem lastSpaceByteIdx_some (w : RStr) :
    ∀ i, lastSpaceByteIdx w = some i →
      ∃ p t, w = p ++ ' ' :: t ∧ byteLen p = i ∧ ' ' ∉ t := by
  induction w with
  | nil => intro i h; simp [lastSpaceByteIdx] at h
  | cons c cs ih =>
    intro i h
    simp only [lastSpaceByteIdx] at h
    match hrec : lastSpaceByteIdx cs with
    | some j =>
      rw [hrec] at h
      simp at h
      obtain ⟨p, t, hw, hlen, hns⟩ := ih j hrec
      refine ⟨c :: p, t, by rw [hw]; rfl, ?_, hns⟩
      rw [byteLen_cons, hlen, ← h]
    | none =>
      rw [hrec] at h
      by_cases hc : c = ' '
      · rw [if_pos hc] at h
        simp at h
        exact ⟨[], cs, by simp [hc], by simp [byteLen, ← h], lastSpaceByteIdx_none cs hrec⟩
      · rw [if_neg hc] at h; simp at h

theorem forceSplit_space_panic (max : Nat) (hpos : 0 < max) (c : Char) (cs : RStr)
    (window : RStr) (i : Nat)
    (h1 : ¬ byteLen (c :: cs) ≤ max) (h2 : byteTake max (c :: cs) = some window)
    (h3 : lastSpaceByteIdx window = some i)
    (h4 : byteSplitAt i (c :: cs) = none) :
    forceSplit max hpos (c :: cs) = none := by
  rw [forceSplit, if_neg h1]
  split
  · rfl
  · rename_i window' heq
    rw [h2] at heq
    injection heq with heq
    subst heq
    split
    · rename_i i' heq3
      rw [h3] at heq3
      injection heq3 with heq3
      subst heq3
      split
      · rfl
      · rename_i piece' rest' heq4
        rw [h4] at heq4
        exact absurd heq4 (by simp)
    · rename_i heq3
      rw [h3] at heq3
      exact absurd heq3 (by simp)

theorem forceSplit_nospace_panic (max : Nat) (hpos : 0 < max) (c : Char) (cs : RStr)
    (window : RStr)
    (h1 : ¬ byteLen (c :: cs) ≤ max) (h2 : byteTake max (c :: cs) = some window)
    (h3 : lastSpaceByteIdx window = none)
    (h4 : byteSplitAt max (c :: cs) = none) :
    forceSplit max hpos (c :: cs) = none := by
  rw [forceSplit, if_neg h1]
  split
  · rfl
  · rename_i window' heq
    rw [h2] at heq
    injection heq with heq
    subst heq
    split
    · rename_i i' heq3
      rw [h3] at heq3
      exact absurd heq3 (by simp)
    · split
      · rfl
      · rename_i piece' rest' heq4
        rw [h4] at heq4
        exact absurd heq4 (by simp)

theorem ne_nil_of_byteLen_pos (s : RStr) (h : 0 < byteLen s) : s ≠ [] := by
  intro he
  subst he
  simp [byteLen] at h

theorem lastSpaceByteIdx_lt (w : RStr) (i : Nat) (h : lastSpaceByteIdx w = some i) :
    i < byteLen w := by
  obtain ⟨p, t, hw, hlen, _⟩ := lastSpaceByteIdx_some w i h
  rw [hw, byteLen_append, byteLen_cons, ← hlen]
  have : (' ' : Char).utf8Size = 1 := by decide
  omega

theorem forceSplit_sizes (max : Nat) (hpos : 0 < max) :
    ∀ (n : Nat) (r : RStr), r.length ≤ n → ∀ ps, forceSplit max hpos r = some ps →
      ∀ x ∈ ps, byteLen x ≤ max := by
  intro n
  induction n with
  | zero =>
    intro r hr ps h x hx
    cases r with
    | nil =>
      rw [forceSplit_nil] at h
      injection h with h
      subst h
      simp at hx
    | cons c cs => simp at hr
  | succ n ih =>
    intro r hr ps h x hx
    cases r with
    | nil =>
      rw [forceSplit_nil] at h
      injection h with h
      subst h
      simp at hx
    | cons c cs =>
      by_cases hle : byteLen (c :: cs) ≤ max
      · rw [forceSplit_le max hpos c cs hle] at h
        injection h with h
        subst h
        simp at hx
        subst hx
        exact hle
      · match hT : byteTake max (c :: cs) with
        | none =>
          rw [forceSplit_take_panic max hpos c cs hle hT] at h
          exact absurd h (by simp)
        | some window =>
          match hS : lastSpaceByteIdx window with
          | some i =>
            match hSp : byteSplitAt i (c :: cs) with
            | none =>
              rw [forceSplit_space_panic max hpos c cs window i hle hT hS hSp] at h
              exact absurd h (by simp)
            | some (piece, rest) =>
              rw [forceSplit_space max hpos c cs window i piece rest hle hT hS hSp] at h
              match hrec : forceSplit max hpos (trimStart rest) with
              | none => rw [hrec] at h; exact absurd h (by simp)
              | some ps' =>
                rw [hrec] at h
                simp at h
                subst h
                have hdec := forceSplit_dec_space max hpos c cs window i piece rest hT hS hSp
                rcases List.mem_cons.mp hx with hx1 | hx1
                · subst hx1
                  have hwin := byteTake_byteLen (c :: cs) max window hT
                  have hi := lastSpaceByteIdx_lt window i hS
                  have := (byteSplitAt_parts (c :: cs) i x rest hSp).2
                  omega
                · exact ih (trimStart rest) (by omega) ps' hrec x hx1
          | none =>
            match hSp : byteSplitAt max (c :: cs) with
            | none =>
              rw [forceSplit_nospace_panic max hpos c cs window hle hT hS hSp] at h
              exact absurd h (by simp)
            | some (piece, rest) =>
              rw [forceSplit_nospace max hpos c cs window piece rest hle hT hS hSp] at h
              match hrec : forceSplit max hpos (trimStart rest) with
              | none => rw [hrec] at h; exact absurd h (by simp)
              | some ps' =>
                rw [hrec] at h
                simp at h
                subst h
                have hdec := forceSplit_dec_nospace max hpos c cs piece rest hSp
                rcases List.mem_cons.mp hx with hx1 | hx1
                · subst hx1
                  have := (byteSplitAt_parts (c :: cs) max x rest hSp).2
                  omega
                · exact ih (trimStart rest) (by omega) ps' hrec x hx1

theorem byteSplitAt_exact (a : RStr) : ∀ b : RStr, byteSplitAt (byteLen a) (a ++ b) = some (a, b) := by
  induction a with
  | nil => intro b; simp [byteLen, byteSplitAt]
  | cons c a' ih =>
    intro b
    have hpos := Char.utf8Size_pos c
    have h1 : byteLen (c :: a') = (c.utf8Size + byteLen a' - 1) + 1 := by
      rw [byteLen_cons]; omega
    rw [h1, List.cons_append]
    simp only [byteSplitAt]
    rw [if_pos (by rw [byteLen_cons] at h1; omega)]
    have h2 : c.utf8Size + byteLen a' - 1 + 1 - c.utf8Size = byteLen a' := by omega
    rw [h2, ih b]
    rfl

/-- Specification of one completed force-split run on `r`, producing `ps`:
either `r` is empty, or fits whole, or the first piece is cut at the last
space strictly inside the `max`-byte window (`spaceCut`: the window is
`p ++ ' ' :: t` with no space in `t`), or hard-cut at exactly `max` bytes
because the window holds no space (`hardCut`).  The remainder continues
after dropping leading whitespace. -/
inductive FSSpec (max : Nat) : RStr → List RStr → Prop where
  | nil : FSSpec max [] []
  | whole (r : RStr) : r ≠ [] → byteLen r ≤ max → FSSpec max r [r]
  | spaceCut (p t u : RStr) (ps : List RStr) :
      ' ' ∉ t → byteLen p + 1 + byteLen t = max → u ≠ [] →
      FSSpec max (trimStart (' ' :: (t ++ u))) ps →
      FSSpec max (p ++ ' ' :: (t ++ u)) (p :: ps)
  | hardCut (p u : RStr) (ps : List RStr) :
      ' ' ∉ p → byteLen p = max → u ≠ [] →
      FSSpec max (trimStart u) ps →
      FSSpec max (p ++ u) (p :: ps)

/-- Reassembly relation: `ps` are the pieces of `r` in order, interleaved
with (possibly empty) runs of whitespace that the splitting consumed. -/
inductive Reassembles : List RStr → RStr → Prop where
  | nil : Reassembles [] []
  | piece (p w r : RStr) (ps : List RStr) :
      (∀ ch ∈ w, rustIsWhitespace ch = true) →
      Reassembles ps r →
      Reassembles (p :: ps) (p ++ (w ++ r))

theorem forceSplit_fsspec (max : Nat) (hpos : 0 < max) :
    ∀ (n : Nat) (r : RStr), r.length ≤ n → ∀ ps, forceSplit max hpos r = some ps →
      FSSpec max r ps := by
  intro n
  induction n with
  | zero =>
    intro r hr ps h
    cases r with
    | nil =>
      rw [forceSplit_nil] at h
      injection h with h
      subst h
      exact .nil
    | cons c cs => simp at hr
  | succ n ih =>
    intro r hr ps h
    cases r with
    | nil =>
      rw [forceSplit_nil] at h
      injection h with h
      subst h
      exact .nil
    | cons c cs =>
      by_cases hle : byteLen (c :: cs) ≤ max
      · rw [forceSplit_le max hpos c cs hle] at h
        injection h with h
        subst h
        exact .whole (c :: cs) (by simp) hle
      · match hT : byteTake max (c :: cs) with
        | none =>
          rw [forceSplit_take_panic max hpos c cs hle hT] at h
          exact absurd h (by simp)
        | some window =>
          obtain ⟨u0, hspw, hcat⟩ := byteSplitAt_of_byteTake (c :: cs) max window hT
          have hwlen : byteLen window = max := byteTake_byteLen (c :: cs) max window hT
          have hu0 : u0 ≠ [] := by
            apply ne_nil_of_byteLen_pos
            have := byteLen_append window u0
            rw [← hcat] at this
            omega
          match hS : lastSpaceByteIdx window with
          | some i =>
            match hSp : byteSplitAt i (c :: cs) with
            | none =>
              rw [forceSplit_space_panic max hpos c cs window i hle hT hS hSp] at h
              exact absurd h (by simp)
            | some (piece, rest) =>
              rw [forceSplit_space max hpos c cs window i piece rest hle hT hS hSp] at h
              match hrec : forceSplit max hpos (trimStart rest) with
              | none => rw [hrec] at h; exact absurd h (by simp)
              | some ps' =>
                rw [hrec] at h
                simp at h
                subst h
                obtain ⟨p, t, hwdec, hplen, hnot⟩ := lastSpaceByteIdx_some window i hS
                have hcat2 : c :: cs = p ++ ' ' :: (t ++ u0) := by
                  rw [hcat, hwdec]
                  simp
                have hexact : byteSplitAt i (c :: cs) = some (p, ' ' :: (t ++ u0)) := by
                  rw [hcat2, ← hplen]
                  exact byteSplitAt_exact p (' ' :: (t ++ u0))
                rw [hexact] at hSp
                injection hSp with hSp
                have hpiece : piece = p := by
                  have := (Prod.mk.injEq _ _ _ _ ▸ hSp).1
                  exact this.symm
                have hrest : rest = ' ' :: (t ++ u0) := by
                  have := (Prod.mk.injEq _ _ _ _ ▸ hSp).2
                  exact this.symm
                have hdec := forceSplit_dec_space max hpos c cs window i piece rest hT hS
                  (by rw [hexact, hpiece, hrest])
                have ihr : FSSpec max (trimStart rest) ps' :=
                  ih (trimStart rest) (by omega) ps' hrec
                rw [hcat2, hpiece]
                have hsplen : byteLen p + 1 + byteLen t = max := by
                  rw [hwdec, byteLen_append, byteLen_cons] at hwlen
                  have : (' ' : Char).utf8Size = 1 := by decide
                  omega
                exact .spaceCut p t u0 ps' hnot hsplen hu0 (by rw [← hrest]; exact ihr)
          | none =>
            match hSp : byteSplitAt max (c :: cs) with
            | none =>
              rw [forceSplit_nospace_panic max hpos c cs window hle hT hS hSp] at h
              exact absurd h (by simp)
            | some (piece, rest) =>
              rw [forceSplit_nospace max hpos c cs window piece rest hle hT hS hSp] at h
              match hrec : forceSplit max hpos (trimStart rest) with
              | none => rw [hrec] at h; exact absurd h (by simp)
              | some ps' =>
                rw [hrec] at h
                simp at h
                subst h
                rw [hspw] at hSp
                injection hSp with hSp
                have hpiece : piece = window := by
                  have := (Prod.mk.injEq _ _ _ _ ▸ hSp).1
                  exact this.symm
                have hrest : rest = u0 := by
                  have := (Prod.mk.injEq _ _ _ _ ▸ hSp).2
                  exact this.symm
                have ihr : FSSpec max (trimStart rest) ps' :=
                  ih (trimStart rest)
                    (by
                      have hdec := forceSplit_dec_nospace max hpos c cs piece rest
                        (by rw [hspw, hpiece, hrest])
                      omega)
                    ps' hrec
                rw [hcat, hpiece]
                exact .hardCut window u0 ps' (lastSpaceByteIdx_none window hS) hwlen hu0
                  (by rw [← hrest]; exact ihr)

theorem fsspec_reassembles (max : Nat) (r : RStr) (ps : List RStr)
    (h : FSSpec max r ps) : Reassembles ps r := by
  induction h with
  | nil => exact .nil
  | whole r hne hle =>
    have := Reassembles.piece r [] [] [] (by simp) Reassembles.nil
    simpa using this
  | spaceCut p t u ps hns hlen hu hrec ih =>
    have hw : ∀ ch ∈ (' ' :: (t ++ u)).takeWhile rustIsWhitespace,
        rustIsWhitespace ch = true := fun ch hch => List.mem_takeWhile_imp hch
    have hp := Reassembles.piece p ((' ' :: (t ++ u)).takeWhile rustIsWhitespace)
      (trimStart (' ' :: (t ++ u))) ps hw ih
    rw [trimStart, List.takeWhile_append_dropWhile] at hp
    exact hp
  | hardCut p u ps hns hlen hu hrec ih =>
    have hw : ∀ ch ∈ u.takeWhile rustIsWhitespace,
        rustIsWhitespace ch = true := fun ch hch => List.mem_takeWhile_imp hch
    have hp := Reassembles.piece p (u.takeWhile rustIsWhitespace)
      (trimStart u) ps hw ih
    rw [trimStart, List.takeWhile_append_dropWhile] at hp
    exact hp

theorem byteLen_nil : byteLen [] = 0 := rfl

theorem chunkStep_sizes (max : Nat) (hpos : 0 < max) (st : List RStr × RStr)
    (p : RStr) (st' : List RStr × RStr)
    (hcur : byteLen st.2 ≤ max) (hall : ∀ x ∈ st.1, byteLen x ≤ max)
    (h : chunkStep max hpos st p = some st') :
    byteLen st'.2 ≤ max ∧ ∀ x ∈ st'.1, byteLen x ≤ max := by
  simp only [chunkStep] at h
  by_cases h1 : byteLen p > max
  · rw [if_pos h1] at h
    match hf : forceSplit max hpos p with
    | none => rw [hf] at h; exact absurd h (by simp)
    | some pieces =>
      rw [hf] at h
      simp at h
      subst h
      refine ⟨by simp [byteLen_nil], ?_⟩
      intro x hx
      rcases List.mem_append.mp hx with hx1 | hx1
      · by_cases he : st.2 = []
        · rw [if_pos he] at hx1
          exact hall x hx1
        · rw [if_neg he] at hx1
          rcases List.mem_append.mp hx1 with hx2 | hx2
          · exact hall x hx2
          · simp at hx2
            subst hx2
            exact hcur
      · exact forceSplit_sizes max hpos p.length p (le_refl _) pieces hf x hx1
  · rw [if_neg h1] at h
    by_cases h2 : byteLen st.2 + byteLen p + 2 > max
    · rw [if_pos h2] at h
      injection h with h
      subst h
      refine ⟨by simp; omega, ?_⟩
      intro x hx
      rcases List.mem_append.mp hx with hx1 | hx1
      · exact hall x hx1
      · simp at hx1
        subst hx1
        exact hcur
    · rw [if_neg h2] at h
      injection h with h
      subst h
      refine ⟨?_, hall⟩
      simp only
      by_cases he : st.2.isEmpty
      · rw [if_pos he]
        omega
      · rw [if_neg he]
        rw [byteLen_append, byteLen_cons, byteLen_cons]
        have : ('\n' : Char).utf8Size = 1 := by decide
        omega

theorem chunkParas_sizes (max : Nat) (hpos : 0 < max) :
    ∀ (paras : List RStr) (st st' : List RStr × RStr),
      byteLen st.2 ≤ max → (∀ x ∈ st.1, byteLen x ≤ max) →
      chunkParas max hpos paras st = some st' →
      byteLen st'.2 ≤ max ∧ ∀ x ∈ st'.1, byteLen x ≤ max := by
  intro paras
  induction paras with
  | nil =>
    intro st st' hcur hall h
    simp only [chunkParas] at h
    injection h with h
    subst h
    exact ⟨hcur, hall⟩
  | cons p ps ih =>
    intro st st' hcur hall h
    simp only [chunkParas] at h
    match hstep : chunkStep max hpos st p with
    | none => rw [hstep] at h; exact absurd h (by simp)
    | some st1 =>
      rw [hstep] at h
      obtain ⟨h1, h2⟩ := chunkStep_sizes max hpos st p st1 hcur hall hstep
      exact ih st1 st' h1 h2 h

theorem chunk_sizes (max : Nat) (hpos : 0 < max) (content : RStr) (segs : List RStr)
    (h : chunk max hpos content = some segs) : ∀ s ∈ segs, byteLen s ≤ max := by
  simp only [chunk] at h
  match hcp : chunkParas max hpos
      ((splitParas content).filter (fun p => !(trim p).isEmpty)) ([], []) with
  | none => rw [hcp] at h; exact absurd h (by simp)
  | some st' =>
    rw [hcp] at h
    obtain ⟨h1, h2⟩ := chunkParas_sizes max hpos _ ([], []) st'
      (by simp [byteLen_nil]) (by simp) hcp
    intro s hs
    simp at h
    rw [← h] at hs
    by_cases he : st'.2 = []
    · rw [if_pos he] at hs
      exact h2 s hs
    · rw [if_neg he] at hs
      rcases List.mem_append.mp hs with hs1 | hs1
      · exact h2 s hs1
      · simp at hs1
        subst hs1
        exact h1

theorem chunkStep_empty_buffer_flush (max : Nat) (hpos : 0 < max) (p : RStr)
    (hle : byteLen p ≤ max) (hgt : max < byteLen p + 2) :
    chunkStep max hpos ([], []) p = some ([[]], p) := by
  unfold chunkStep
  rw [if_neg (by omega : ¬ byteLen p > max)]
  rw [if_pos (show byteLen ([] : RStr) + byteLen p + 2 > max by rw [byteLen_nil]; omega)]
  rfl

/-- C1 counter-evidence: when the buffer is empty the code still counts the
2-byte separator (`main.rs` line 163: `current_chunk.len() + paragraph.len() + 2`),
so a single paragraph `p` with `maxSize - 2 < byteLen p ≤ maxSize` flushes the
empty buffer (line 166) and the chunker returns `["", p]` — an empty first
segment, and a `"\n\n"`-join that differs from the paragraph itself by a
leading `"\n\n"`. -/
theorem c1_empty_buffer_is_flushed (max : Nat) (hpos : 0 < max) (p : RStr)
    (hsp : splitParas p = [p]) (hnb : (trim p).isEmpty = false)
    (hle : byteLen p ≤ max) (hgt : max < byteLen p + 2) :
    chunk max hpos p = some [[], p] ∧ joinNN [[], p] = '\n' :: '\n' :: p := by
  have hpne : p ≠ [] := by
    intro he
    subst he
    simp [trim, trimStart, trimEnd] at hnb
  constructor
  · simp only [chunk, hsp]
    rw [show List.filter (fun q => !List.isEmpty (trim q)) [p] = [p] by
      simp [List.filter, hnb]]
    simp only [chunkParas, chunkStep_empty_buffer_flush max hpos p hle hgt]
    rw [show p.isEmpty = false by
      cases p with
      | nil => exact absurd rfl hpne
      | cons a b => rfl]
    rfl
  · rfl

/-- C1 witness: at `maxSize = 10` the nine-byte paragraph `"aaaaaaaaa"` is
chunked into `["", "aaaaaaaaa"]`, emitting an empty segment. -/
theorem c1_empty_buffer_is_flushed_witness :
    chunk 10 (by decide) (List.replicate 9 'a') =
        some [[], List.replicate 9 'a'] ∧
      joinNN [[], List.replicate 9 'a'] = '\n' :: '\n' :: List.replicate 9 'a' :=
  c1_empty_buffer_is_flushed 10 (by decide) (List.replicate 9 'a')
    (by decide) (by decide) (by decide) (by decide)

/-- C2 counter-evidence: the chunking step is not total.  A paragraph longer
than `maxSize` bytes whose byte index `maxSize` falls strictly inside a
multi-byte character makes the slice `remaining[..MAX_CHUNK_SIZE]`
(`main.rs` line 157) panic, modelled as `chunk ... = none`. -/
theorem c2_chunk_panics_mid_character (max : Nat) (hpos : 0 < max) (p : RStr)
    (hsp : splitParas p = [p]) (hnb : (trim p).isEmpty = false)
    (hgt : max < byteLen p) (htk : byteTake max p = none) :
    chunk max hpos p = none := by
  have hpne : p ≠ [] := by
    intro he
    subst he
    simp [trim, trimStart, trimEnd] at hnb
  obtain ⟨c, cs, hp⟩ : ∃ c cs, p = c :: cs := by
    cases p with
    | nil => exact absurd rfl hpne
    | cons c cs => exact ⟨c, cs, rfl⟩
  subst hp
  simp only [chunk, hsp]
  rw [show List.filter (fun q => !List.isEmpty (trim q)) [c :: cs] = [c :: cs] by
    simp [List.filter, hnb]]
  simp only [chunkParas, chunkStep]
  rw [if_pos (by omega : byteLen (c :: cs) > max)]
  rw [forceSplit_take_panic max hpos c cs (by omega) htk]
  rfl

/-- C2 witness: at `maxSize = 4` the five-byte paragraph `"aaaé"` (three
one-byte characters followed by a two-byte character) panics, because byte
index 4 splits the `'é'`. -/
theorem c2_chunk_panics_mid_character_witness :
    chunk 4 (by decide) ['a', 'a', 'a', 'é'] = none :=
  c2_chunk_panics_mid_character 4 (by decide) ['a', 'a', 'a', 'é']
    (by decide) (by decide) (by decide) (by decide)

/-- C3: every segment returned by a completed run of the chunker at
`MAX_CHUNK_SIZE = 4500` has byte length at most `MAX_CHUNK_SIZE`, covering
force-split pieces, flushed buffers and the final buffer flush. -/
theorem c3_segments_within_max (content : RStr) (segs : List RStr) (s : RStr)
    (h : chunk MAX_CHUNK_SIZE (by decide) content = some segs) (hs : s ∈ segs) :
    byteLen s ≤ MAX_CHUNK_SIZE :=
  chunk_sizes MAX_CHUNK_SIZE (by decide) content segs h s hs

/-- C3 witness: the two-byte text `"hi"` is chunked into the single segment
`"hi"`, whose byte length is within `MAX_CHUNK_SIZE`. -/
theorem c3_segments_within_max_witness :
    chunk MAX_CHUNK_SIZE (by decide) ['h', 'i'] = some [['h', 'i']] ∧
      byteLen ['h', 'i'] ≤ MAX_CHUNK_SIZE :=
  ⟨by decide, c3_segments_within_max ['h', 'i'] [['h', 'i']] ['h', 'i']
    (by decide) (by decide)⟩

/-- C4 counterexample: the force-split searches only for an ASCII space
(`rfind(' ')`, `main.rs` line 157), not general whitespace.  With
`maxSize = 3` and the paragraph `"a\tbcd"`, a whitespace character (the tab)
lies within the first 3 bytes, yet the code hard-cuts at byte 3 — between
`'b'` and `'c'`, which are not whitespace — refuting the claim that a cut
falls on a whitespace boundary whenever whitespace exists in the window. -/
theorem c4_counterexample_tab_ignored :
    forceSplit 3 (by decide) ['a', '\t', 'b', 'c', 'd'] =
        some [['a', '\t', 'b'], ['c', 'd']] ∧
      rustIsWhitespace '\t' = true ∧
      byteTake 3 ['a', '\t', 'b', 'c', 'd'] = some ['a', '\t', 'b'] ∧
      rustIsWhitespace 'b' = false ∧ rustIsWhitespace 'c' = false ∧
      trimStart ['c', 'd'] = ['c', 'd'] := by
  refine ⟨?_, by decide, by decide, by decide, by decide, by decide⟩
  rw [forceSplit_nospace 3 (by decide) 'a' ['\t', 'b', 'c', 'd'] ['a', '\t', 'b']
    ['a', '\t', 'b'] ['c', 'd'] (by decide) (by decide) (by decide) (by decide)]
  rw [show trimStart ['c', 'd'] = ['c', 'd'] from by decide]
  rw [forceSplit_le 3 (by decide) 'c' ['d'] (by decide)]
  rfl

/-- C4 (amended): a completed force-split run cuts at the last ASCII space
strictly inside the `maxSize`-byte window whenever the window holds a space
(`FSSpec.spaceCut`: the window is `p ++ ' ' :: t` with no space in `t`), and
hard-cuts at exactly `maxSize` bytes only when the window holds no space
(`FSSpec.hardCut`); re-concatenating the pieces with the whitespace consumed
at each cut point restored reconstructs the paragraph (`Reassembles`). -/
theorem c4_split_at_last_space_and_reassembles (max : Nat) (hpos : 0 < max)
    (r : RStr) (ps : List RStr) (h : forceSplit max hpos r = some ps) :
    FSSpec max r ps ∧ Reassembles ps r :=
  have h1 := forceSplit_fsspec max hpos r.length r (le_refl _) ps h
  ⟨h1, fsspec_reassembles max r ps h1⟩

theorem forceSplit_eval_space_example :
    forceSplit 3 (by decide) ['a', 'b', ' ', 'c', 'd'] =
      some [['a', 'b'], ['c', 'd']] := by
  rw [forceSplit_space 3 (by decide) 'a' ['b', ' ', 'c', 'd'] ['a', 'b', ' '] 2
    ['a', 'b'] [' ', 'c', 'd'] (by decide) (by decide) (by decide) (by decide)]
  rw [show trimStart [' ', 'c', 'd'] = ['c', 'd'] from by decide]
  rw [forceSplit_le 3 (by decide) 'c' ['d'] (by decide)]
  rfl

/-- C4 witness: splitting `"ab cd"` at `maxSize = 3` cuts at the space,
giving pieces `["ab", "cd"]` that satisfy the cut specification and
reassemble to the original paragraph. -/
theorem c4_split_at_last_space_and_reassembles_witness :
    FSSpec 3 ['a', 'b', ' ', 'c', 'd'] [['a', 'b'], ['c', 'd']] ∧
      Reassembles [['a', 'b'], ['c', 'd']] ['a', 'b', ' ', 'c', 'd'] :=
  c4_split_at_last_space_and_reassembles 3 (by decide)
    ['a', 'b', ' ', 'c', 'd'] [['a', 'b'], ['c', 'd']]
    forceSplit_eval_space_example

theorem translate_loop_step_retry (decode : RStr → Option RStr) (env : Nat → SendResult)
    (a : Nat) (rest : List Nat) (lastE : Option RetryCause) (used : Nat)
    (sleeps : List Nat) (cause : RetryCause)
    (h : classify decode (env a) = .retry cause) :
    translate_loop decode env (a :: rest) lastE used sleeps =
      translate_loop decode env rest (some cause) (used + 1)
        (if 0 < a then sleeps ++ [30 * 2 ^ a] else sleeps) := by
  simp only [translate_loop]
  match henv : env a with
  | .connErr =>
    rw [henv] at h
    simp only [classify] at h
    injection h with h
    rw [← h]
  | .ok r =>
    rw [henv] at h
    simp only [classify] at h
    dsimp only
    by_cases hs : 200 ≤ r.status ∧ r.status ≤ 299
    · rw [if_pos hs] at h ⊢
      match hb : r.body with
      | .error e' =>
        rw [hb] at h
        dsimp only at h ⊢
        injection h with h
        rw [← h]
      | .ok bodyText =>
        rw [hb] at h
        dsimp only at h ⊢
        match hd : decode bodyText with
        | some t' => rw [hd] at h; dsimp only at h; exact absurd h (by simp)
        | none => rw [hd] at h; dsimp only at h; exact absurd h (by simp)
    · rw [if_neg hs] at h ⊢
      by_cases hc : 400 ≤ r.status ∧ r.status ≤ 499
      · rw [if_pos hc] at h; exact absurd h (by simp)
      · rw [if_neg hc] at h ⊢
        injection h with h
        rw [← h]

theorem translate_loop_step_success (decode : RStr → Option RStr) (env : Nat → SendResult)
    (a : Nat) (rest : List Nat) (lastE : Option RetryCause) (used : Nat)
    (sleeps : List Nat) (t : RStr)
    (h : classify decode (env a) = .success t) :
    translate_loop decode env (a :: rest) lastE used sleeps =
      ⟨.ok t, used + 1, if 0 < a then sleeps ++ [30 * 2 ^ a] else sleeps⟩ := by
  simp only [translate_loop]
  match henv : env a with
  | .connErr =>
    rw [henv] at h
    simp only [classify] at h
    exact absurd h (by simp)
  | .ok r =>
    rw [henv] at h
    simp only [classify] at h
    dsimp only
    by_cases hs : 200 ≤ r.status ∧ r.status ≤ 299
    · rw [if_pos hs] at h ⊢
      match hb : r.body with
      | .error e' =>
        rw [hb] at h
        dsimp only at h
        exact absurd h (by simp)
      | .ok bodyText =>
        rw [hb] at h
        dsimp only at h ⊢
        match hd : decode bodyText with
        | some t' =>
          rw [hd] at h
          dsimp only at h ⊢
          injection h with h
          rw [← h]
        | none => rw [hd] at h; dsimp only at h; exact absurd h (by simp)
    · rw [if_neg hs] at h ⊢
      by_cases hc : 400 ≤ r.status ∧ r.status ≤ 499
      · rw [if_pos hc] at h; exact absurd h (by simp)
      · rw [if_neg hc] at h; exact absurd h (by simp)

theorem translate_loop_step_terminal (decode : RStr → Option RStr) (env : Nat → SendResult)
    (a : Nat) (rest : List Nat) (lastE : Option RetryCause) (used : Nat)
    (sleeps : List Nat) (e : TransFail)
    (h : classify decode (env a) = .terminal e) :
    translate_loop decode env (a :: rest) lastE used sleeps =
      ⟨.error e, used + 1, if 0 < a then sleeps ++ [30 * 2 ^ a] else sleeps⟩ := by
  simp only [translate_loop]
  match henv : env a with
  | .connErr =>
    rw [henv] at h
    simp only [classify] at h
    exact absurd h (by simp)
  | .ok r =>
    rw [henv] at h
    simp only [classify] at h
    dsimp only
    by_cases hs : 200 ≤ r.status ∧ r.status ≤ 299
    · rw [if_pos hs] at h ⊢
      match hb : r.body with
      | .error e' =>
        rw [hb] at h
        dsimp only at h
        exact absurd h (by simp)
      | .ok bodyText =>
        rw [hb] at h
        dsimp only at h ⊢
        match hd : decode bodyText with
        | some t' => rw [hd] at h; dsimp only at h; exact absurd h (by simp)
        | none =>
          rw [hd] at h
          dsimp only at h ⊢
          injection h with h
          rw [← h]
    · rw [if_neg hs] at h ⊢
      by_cases hc : 400 ≤ r.status ∧ r.status ≤ 499
      · rw [if_pos hc] at h ⊢
        injection h with h
        rw [← h]
      · rw [if_neg hc] at h; exact absurd h (by simp)

theorem translate_loop_reach_terminal (decode : RStr → Option RStr)
    (env : Nat → SendResult) :
    ∀ (l1 : List Nat) (b : Nat) (l2 : List Nat) (lastE : Option RetryCause)
      (used : Nat) (sleeps : List Nat) (e : TransFail),
      (∀ a ∈ l1, ∃ cause, classify decode (env a) = .retry cause) →
      classify decode (env b) = .terminal e →
      (translate_loop decode env (l1 ++ b :: l2) lastE used sleeps).result = .error e ∧
        (translate_loop decode env (l1 ++ b :: l2) lastE used sleeps).attemptsMade =
          used + l1.length + 1 := by
  intro l1
  induction l1 with
  | nil =>
    intro b l2 lastE used sleeps e hret hterm
    rw [List.nil_append, translate_loop_step_terminal decode env b l2 lastE used sleeps e hterm]
    exact ⟨rfl, by simp⟩
  | cons a l1' ih =>
    intro b l2 lastE used sleeps e hret hterm
    obtain ⟨cause, hcause⟩ := hret a (by simp)
    rw [List.cons_append, translate_loop_step_retry decode env a (l1' ++ b :: l2) lastE
      used sleeps cause hcause]
    obtain ⟨h1, h2⟩ := ih b l2 (some cause) (used + 1)
      (if 0 < a then sleeps ++ [30 * 2 ^ a] else sleeps) e
      (fun a' ha' => hret a' (by simp [ha'])) hterm
    exact ⟨h1, by rw [h2]; simp; omega⟩

theorem translate_loop_reach_success (decode : RStr → Option RStr)
    (env : Nat → SendResult) :
    ∀ (l1 : List Nat) (b : Nat) (l2 : List Nat) (lastE : Option RetryCause)
      (used : Nat) (sleeps : List Nat) (t : RStr),
      (∀ a ∈ l1, ∃ cause, classify decode (env a) = .retry cause) →
      classify decode (env b) = .success t →
      (translate_loop decode env (l1 ++ b :: l2) lastE used sleeps).result = .ok t ∧
        (translate_loop decode env (l1 ++ b :: l2) lastE used sleeps).attemptsMade =
          used + l1.length + 1 := by
  intro l1
  induction l1 with
  | nil =>
    intro b l2 lastE used sleeps t hret hsucc
    rw [List.nil_append, translate_loop_step_success decode env b l2 lastE used sleeps t hsucc]
    exact ⟨rfl, by simp⟩
  | cons a l1' ih =>
    intro b l2 lastE used sleeps t hret hsucc
    obtain ⟨cause, hcause⟩ := hret a (by simp)
    rw [List.cons_append, translate_loop_step_retry decode env a (l1' ++ b :: l2) lastE
      used sleeps cause hcause]
    obtain ⟨h1, h2⟩ := ih b l2 (some cause) (used + 1)
      (if 0 < a then sleeps ++ [30 * 2 ^ a] else sleeps) t
      (fun a' ha' => hret a' (by simp [ha'])) hsucc
    exact ⟨h1, by rw [h2]; simp; omega⟩

theorem translate_loop_all_retry (decode : RStr → Option RStr)
    (env : Nat → SendResult) (cs : Nat → RetryCause) :
    ∀ (l : List Nat) (lastE : Option RetryCause) (used : Nat) (sleeps : List Nat),
      (∀ a ∈ l, classify decode (env a) = .retry (cs a)) →
      (translate_loop decode env l lastE used sleeps).result =
          .error (.exhausted (match l.getLast? with
            | some a => some (cs a)
            | none => lastE)) ∧
        (translate_loop decode env l lastE used sleeps).attemptsMade = used + l.length := by
  intro l
  induction l with
  | nil =>
    intro lastE used sleeps hret
    simp only [translate_loop]
    exact ⟨rfl, by simp⟩
  | cons a l' ih =>
    intro lastE used sleeps hret
    rw [translate_loop_step_retry decode env a l' lastE used sleeps (cs a) (hret a (by simp))]
    obtain ⟨h1, h2⟩ := ih (some (cs a)) (used + 1)
      (if 0 < a then sleeps ++ [30 * 2 ^ a] else sleeps)
      (fun a' ha' => hret a' (by simp [ha']))
    refine ⟨?_, by rw [h2]; simp; omega⟩
    rw [h1]
    cases l' with
    | nil => rfl
    | cons b l'' =>
      rw [List.getLast?_cons_cons]
      obtain ⟨x, hx⟩ : ∃ x, (b :: l'').getLast? = some x := by
        cases hxx : (b :: l'').getLast? with
        | none =>
          have := (List.getLast?_isSome (l := b :: l'')).mpr (by simp)
          rw [hxx] at this
          simp at this
        | some x => exact ⟨x, rfl⟩
      rw [hx]

theorem translate_loop_made_ge (decode : RStr → Option RStr) (env : Nat → SendResult) :
    ∀ (l : List Nat) (lastE : Option RetryCause) (used : Nat) (sleeps : List Nat),
      used ≤ (translate_loop decode env l lastE used sleeps).attemptsMade ∧
        (l ≠ [] → used + 1 ≤ (translate_loop decode env l lastE used sleeps).attemptsMade) := by
  intro l
  induction l with
  | nil =>
    intro lastE used sleeps
    exact ⟨le_refl _, fun h => absurd rfl h⟩
  | cons a l' ih =>
    intro lastE used sleeps
    rcases hcl : classify decode (env a) with t | cause | e
    · rw [translate_loop_step_success decode env a l' lastE used sleeps t hcl]
      exact ⟨by simp, fun _ => by simp⟩
    · rw [translate_loop_step_retry decode env a l' lastE used sleeps cause hcl]
      have := (ih (some cause) (used + 1) (if 0 < a then sleeps ++ [30 * 2 ^ a] else sleeps)).1
      exact ⟨by omega, fun _ => this⟩
    · rw [translate_loop_step_terminal decode env a l' lastE used sleeps e hcl]
      exact ⟨by simp, fun _ => by simp⟩

theorem translate_loop_sleeps_schedule (decode : RStr → Option RStr)
    (env : Nat → SendResult) :
    ∀ (k a : Nat) (lastE : Option RetryCause) (used : Nat) (sleeps : List Nat),
      1 ≤ a →
      (translate_loop decode env (List.range' a k) lastE used sleeps).sleeps =
        sleeps ++ (List.range' a
            ((translate_loop decode env (List.range' a k) lastE used sleeps).attemptsMade
              - used)).map (fun j => 30 * 2 ^ j) := by
  intro k
  induction k with
  | zero =>
    intro a lastE used sleeps ha
    simp [List.range'_zero, translate_loop]
  | succ k ih =>
    intro a lastE used sleeps ha
    rw [List.range'_succ]
    rcases hcl : classify decode (env a) with t | cause | e
    · rw [translate_loop_step_success decode env a (List.range' (a + 1) k) lastE used sleeps t hcl]
      simp only
      rw [if_pos (by omega : 0 < a)]
      rw [show used + 1 - used = 1 from by omega, List.range'_one]
      simp
    · rw [translate_loop_step_retry decode env a (List.range' (a + 1) k) lastE used sleeps cause hcl]
      rw [if_pos (by omega : 0 < a)]
      have hge := (translate_loop_made_ge decode env (List.range' (a + 1) k) (some cause)
        (used + 1) (sleeps ++ [30 * 2 ^ a])).1
      have hih := ih (a + 1) (some cause) (used + 1) (sleeps ++ [30 * 2 ^ a]) (by omega)
      rw [hih]
      have hm : (translate_loop decode env (List.range' (a + 1) k) (some cause) (used + 1)
          (sleeps ++ [30 * 2 ^ a])).attemptsMade - used =
          ((translate_loop decode env (List.range' (a + 1) k) (some cause) (used + 1)
            (sleeps ++ [30 * 2 ^ a])).attemptsMade - (used + 1)) + 1 := by omega
      rw [hm, List.range'_succ]
      simp
    · rw [translate_loop_step_terminal decode env a (List.range' (a + 1) k) lastE used sleeps e hcl]
      simp only
      rw [if_pos (by omega : 0 < a)]
      rw [show used + 1 - used = 1 from by omega, List.range'_one]
      simp

theorem translate_chunk_sleeps (decode : RStr → Option RStr) (env : Nat → SendResult) :
    (translate_chunk decode env).sleeps =
      (List.range' 1 ((translate_chunk decode env).attemptsMade - 1)).map
        (fun k => 30 * 2 ^ k) := by
  unfold translate_chunk
  rw [show List.range (MAX_RETRIES + 1) = 0 :: List.range' 1 3 from by decide]
  rcases hcl : classify decode (env 0) with t | cause | e
  · rw [translate_loop_step_success decode env 0 (List.range' 1 3) none 0 [] t hcl]
    simp
  · rw [translate_loop_step_retry decode env 0 (List.range' 1 3) none 0 [] cause hcl]
    rw [if_neg (by omega : ¬ 0 < 0)]
    have := translate_loop_sleeps_schedule decode env 3 1 (some cause) 1 [] (by omega)
    rw [this]
    simp
  · rw [translate_loop_step_terminal decode env 0 (List.range' 1 3) none 0 [] e hcl]
    simp

/-- C5: the delay slept before retry `k` is exactly `30 * 2 ^ k` seconds
(no delay before attempt 0), so the recorded sleeps of any call are
`[60, 120, ...]` for retries `1, 2, ...`; in the scenario where attempts 1
and 2 see a 503 status and attempt 3 succeeds, the call returns the
translated text after sleeping `60 + 120 = 180` seconds in total. -/
theorem c5_backoff_delays (decode : RStr → Option RStr) (env : Nat → SendResult) :
    (translate_chunk decode env).sleeps =
        (List.range' 1 ((translate_chunk decode env).attemptsMade - 1)).map
          (fun k => 30 * 2 ^ k) ∧
      (∀ b0 b1 body t,
        env 0 = .ok ⟨503, b0⟩ → env 1 = .ok ⟨503, b1⟩ →
        env 2 = .ok ⟨200, .ok body⟩ → decode body = some t →
        (translate_chunk decode env).result = .ok t ∧
          (translate_chunk decode env).sleeps = [60, 120] ∧
          (translate_chunk decode env).sleeps.sum = 180) := by
  refine ⟨translate_chunk_sleeps decode env, ?_⟩
  intro b0 b1 body t h0 h1 h2 hd
  have hc0 : classify decode (env 0) = .retry (.badStatus 503) := by
    rw [h0]; simp [classify]
  have hc1 : classify decode (env 1) = .retry (.badStatus 503) := by
    rw [h1]; simp [classify]
  have hc2 : classify decode (env 2) = .success t := by
    rw [h2]; simp [classify, hd]
  have hch : translate_chunk decode env =
      translate_loop decode env ([0, 1] ++ 2 :: [3]) none 0 [] := by
    unfold translate_chunk
    rw [show List.range (MAX_RETRIES + 1) = [0, 1] ++ 2 :: [3] from by decide]
  have hreach := translate_loop_reach_success decode env [0, 1] 2 [3] none 0 [] t
    (by
      intro a ha
      simp at ha
      rcases ha with ha | ha <;> subst ha
      · exact ⟨.badStatus 503, hc0⟩
      · exact ⟨.badStatus 503, hc1⟩) hc2
  have hres : (translate_chunk decode env).result = .ok t := by rw [hch]; exact hreach.1
  have hmade : (translate_chunk decode env).attemptsMade = 3 := by
    rw [hch, hreach.2]; rfl
  have hsl : (translate_chunk decode env).sleeps = [60, 120] := by
    have := translate_chunk_sleeps decode env
    rw [hmade] at this
    rw [this]
    decide
  exact ⟨hres, hsl, by rw [hsl]; rfl⟩

/-- C5 witness: with attempts 0 and 1 answering 503 and attempt 2 answering
200 with a decodable body, the call succeeds after sleeping 60 then 120
seconds, 180 in total. -/
theorem c5_backoff_delays_witness :
    (translate_chunk (fun s => some s)
        (fun n => if n = 2 then .ok ⟨200, .ok ['x']⟩ else .ok ⟨503, .ok []⟩)).result =
          .ok ['x'] ∧
      (translate_chunk (fun s => some s)
        (fun n => if n = 2 then .ok ⟨200, .ok ['x']⟩ else .ok ⟨503, .ok []⟩)).sleeps =
          [60, 120] ∧
      (translate_chunk (fun s => some s)
        (fun n => if n = 2 then .ok ⟨200, .ok ['x']⟩ else .ok ⟨503, .ok []⟩)).sleeps.sum =
          180 :=
  (c5_backoff_delays (fun s => some s)
    (fun n => if n = 2 then .ok ⟨200, .ok ['x']⟩ else .ok ⟨503, .ok []⟩)).2
    (.ok []) (.ok []) ['x'] ['x'] rfl rfl rfl rfl

/-- C6: when attempt `j` is classified terminal (a 4xx status, or a success
status whose body fails to decode) after only retryable attempts before it,
the call fails at once with that terminal error, making exactly `j + 1`
attempts; in particular a 400 status on the first attempt yields exactly one
attempt and the `clientRejection` failure. -/
theorem c6_terminal_fails_immediately (decode : RStr → Option RStr)
    (env : Nat → SendResult) :
    (∀ j e, j ≤ MAX_RETRIES →
      (∀ i, i < j → ∃ cause, classify decode (env i) = .retry cause) →
      classify decode (env j) = .terminal e →
      (translate_chunk decode env).result = .error e ∧
        (translate_chunk decode env).attemptsMade = j + 1) ∧
    (∀ b, env 0 = .ok ⟨400, b⟩ →
      (translate_chunk decode env).result = .error (.clientRejection 400) ∧
        (translate_chunk decode env).attemptsMade = 1) := by
  have main : ∀ j e, j ≤ MAX_RETRIES →
      (∀ i, i < j → ∃ cause, classify decode (env i) = .retry cause) →
      classify decode (env j) = .terminal e →
      (translate_chunk decode env).result = .error e ∧
        (translate_chunk decode env).attemptsMade = j + 1 := by
    intro j e hj hpre hterm
    have hd : List.range (MAX_RETRIES + 1) =
        List.range' 0 j ++ j :: List.range' (j + 1) (MAX_RETRIES - j) := by
      rw [List.range_eq_range']
      rw [show MAX_RETRIES + 1 = (MAX_RETRIES + 1 - j) + j from by
        simp only [MAX_RETRIES] at hj ⊢
        omega]
      rw [← List.range'_append 0 j (MAX_RETRIES + 1 - j) 1]
      congr 1
      rw [show 0 + 1 * j = j from by omega]
      rw [show MAX_RETRIES + 1 - j = (MAX_RETRIES - j) + 1 from by
        simp only [MAX_RETRIES] at hj ⊢
        omega]
      rw [List.range'_succ]
    have hch : translate_chunk decode env =
        translate_loop decode env
          (List.range' 0 j ++ j :: List.range' (j + 1) (MAX_RETRIES - j)) none 0 [] := by
      unfold translate_chunk
      rw [hd]
    have hreach := translate_loop_reach_terminal decode env (List.range' 0 j) j
      (List.range' (j + 1) (MAX_RETRIES - j)) none 0 [] e
      (by
        intro a ha
        obtain ⟨i, hi, rfl⟩ := List.mem_range'.mp ha
        exact hpre (0 + 1 * i) (by omega)) hterm
    refine ⟨by rw [hch]; exact hreach.1, ?_⟩
    rw [hch, hreach.2, List.length_range']
    omega
  refine ⟨main, ?_⟩
  intro b hb
  refine main 0 (.clientRejection 400) (by simp [MAX_RETRIES])
    (fun i hi => absurd hi (by omega)) ?_
  rw [hb]
  simp [classify]

/-- C6 witness: an environment answering 400 on every attempt fails with
`clientRejection 400` after exactly one attempt. -/
theorem c6_terminal_fails_immediately_witness :
    (translate_chunk (fun s => some s) (fun _ => .ok ⟨400, .ok []⟩)).result =
        .error (.clientRejection 400) ∧
      (translate_chunk (fun s => some s) (fun _ => .ok ⟨400, .ok []⟩)).attemptsMade = 1 :=
  (c6_terminal_fails_immediately (fun s => some s) (fun _ => .ok ⟨400, .ok []⟩)).2
    (.ok []) rfl

/-- C7: when every attempt's outcome is retryable the call makes exactly
`MAX_RETRIES = 3` retries beyond the initial attempt — 4 attempts in all —
and then fails carrying the last observed retry cause. -/
theorem c7_retry_budget_exhausted (decode : RStr → Option RStr)
    (env : Nat → SendResult) (cs : Nat → RetryCause)
    (h : ∀ i, i ≤ MAX_RETRIES → classify decode (env i) = .retry (cs i)) :
    (translate_chunk decode env).result =
        .error (.exhausted (some (cs MAX_RETRIES))) ∧
      (translate_chunk decode env).attemptsMade = MAX_RETRIES + 1 := by
  obtain ⟨h1, h2⟩ := translate_loop_all_retry decode env cs
    (List.range (MAX_RETRIES + 1)) none 0 []
    (by
      intro a ha
      rw [List.mem_range] at ha
      exact h a (by omega))
  unfold translate_chunk
  constructor
  · rw [h1, show (List.range (MAX_RETRIES + 1)).getLast? = some MAX_RETRIES from by decide]
  · rw [h2]
    decide

/-- C7 witness: an environment whose every attempt fails at the connection
level exhausts the budget after 4 attempts, carrying the connection error. -/
theorem c7_retry_budget_exhausted_witness :
    (translate_chunk (fun s => some s) (fun _ => .connErr)).result =
        .error (.exhausted (some .conn)) ∧
      (translate_chunk (fun s => some s) (fun _ => .connErr)).attemptsMade =
        MAX_RETRIES + 1 :=
  c7_retry_budget_exhausted (fun s => some s) (fun _ => .connErr) (fun _ => .conn)
    (fun _ _ => rfl)

theorem translateAll_ok (oracle : Nat → Except TransFail RStr) (ts : Nat → RStr) :
    ∀ (cs : List RStr) (i : Nat) (acc : List RStr),
      (∀ k, k < cs.length → oracle (i + k) = .ok (ts (i + k))) →
      translateAll oracle i cs acc =
        (i + cs.length, .ok (acc ++ (List.range cs.length).map (fun k => ts (i + k)))) := by
  intro cs
  induction cs with
  | nil =>
    intro i acc h
    simp [translateAll]
  | cons c cs' ih =>
    intro i acc h
    simp only [translateAll]
    rw [show oracle i = .ok (ts i) from by
      have := h 0 (by simp)
      simpa using this]
    dsimp only
    rw [ih (i + 1) (acc ++ [ts i]) (fun k hk => by
      have := h (k + 1) (by simp; omega)
      rw [show i + (k + 1) = i + 1 + k from by omega] at this
      exact this)]
    rw [Prod.mk.injEq]
    refine ⟨by simp; omega, ?_⟩
    rw [Except.ok.injEq]
    simp only [List.length_cons, List.range_succ_eq_map, List.map_cons, List.map_map,
      Nat.add_zero, List.append_assoc, List.singleton_append]
    refine congrArg (fun l => acc ++ (ts i :: l)) ?_
    apply List.map_congr_left
    intro k hk
    simp only [Function.comp_apply]
    refine congrArg ts (by omega)

theorem translateAll_err (oracle : Nat → Except TransFail RStr) (ts : Nat → RStr) :
    ∀ (cs : List RStr) (j i : Nat) (acc : List RStr) (e : TransFail),
      j < cs.length →
      (∀ k, k < j → oracle (i + k) = .ok (ts (i + k))) →
      oracle (i + j) = .error e →
      translateAll oracle i cs acc = (i + j + 1, .error e) := by
  intro cs
  induction cs with
  | nil =>
    intro j i acc e hj _ _
    simp at hj
  | cons c cs' ih =>
    intro j i acc e hj hpre herr
    simp only [translateAll]
    cases j with
    | zero =>
      rw [show oracle i = .error e from by simpa using herr]
    | succ j' =>
      rw [show oracle i = .ok (ts i) from by
        have := hpre 0 (by omega)
        simpa using this]
      dsimp only
      rw [ih j' (i + 1) (acc ++ [ts i]) e (by simp at hj; omega)
        (fun k hk => by
          have := hpre (k + 1) (by omega)
          rw [show i + (k + 1) = i + 1 + k from by omega] at this
          exact this)
        (by rw [show i + 1 + j' = i + (j' + 1) from by omega]; exact herr)]
      rw [show i + 1 + j' + 1 = i + (j' + 1) + 1 from by omega]

/-- C8: if the translation of segment `j` fails after segments `0..j`
succeeded, the run aborts with `j + 1` segments submitted, no later segment
submitted and no output produced; if every segment succeeds, the run
performs exactly one call per segment and outputs the translations joined
in order with `"\n\n"`. -/
theorem c8_abort_or_join (hasOut : Bool) (oracle : Nat → Except TransFail RStr)
    (ts : Nat → RStr) (raw : RStr) (cs : List RStr)
    (hne : (replaceCRLF raw).isEmpty = false)
    (hch : chunk MAX_CHUNK_SIZE (by decide) (replaceCRLF raw) = some cs) :
    (∀ j e, j < cs.length →
      (∀ i, i < j → oracle i = .ok (ts i)) →
      oracle j = .error e →
      runMain hasOut oracle raw = ⟨false, j + 1, .noOutput⟩) ∧
    ((∀ i, i < cs.length → oracle i = .ok (ts i)) →
      runMain hasOut oracle raw =
        ⟨true, cs.length,
          if hasOut then .fileWrite (joinNN ((List.range cs.length).map ts))
          else .console (joinNN ((List.range cs.length).map ts))⟩) := by
  constructor
  · intro j e hj hpre herr
    simp only [runMain, hne, Bool.false_eq_true, if_false, hch]
    rw [translateAll_err oracle ts cs j 0 [] e hj
      (fun k hk => by simpa using hpre k hk)
      (by simpa using herr)]
    simp
  · intro hall
    simp only [runMain, hne, Bool.false_eq_true, if_false, hch]
    rw [translateAll_ok oracle ts cs 0 []
      (fun k hk => by simpa using hall k hk)]
    dsimp only
    rw [show (List.range cs.length).map (fun k => ts (0 + k)) =
        (List.range cs.length).map ts from
      List.map_congr_left (fun k _ => congrArg ts (by omega))]
    simp

/-- C8 witness: with the two-byte input `"a"` (one chunk), a failing first
translation aborts with one call and no output, and a succeeding one prints
the translated chunk to the console. -/
theorem c8_abort_or_join_witness :
    runMain true (fun _ => .error (.exhausted none)) ['a'] = ⟨false, 1, .noOutput⟩ ∧
      runMain false (fun _ => .ok ['b']) ['a'] = ⟨true, 1, .console ['b']⟩ :=
  ⟨(c8_abort_or_join true (fun _ => .error (.exhausted none)) (fun _ => [])
      ['a'] [['a']] (by decide) (by decide)).1 0 (.exhausted none) (by decide)
      (fun i hi => absurd hi (by omega)) rfl,
    (c8_abort_or_join false (fun _ => .ok ['b']) (fun _ => ['b'])
      ['a'] [['a']] (by decide) (by decide)).2 (fun i _ => rfl)⟩

/-- C9: an input whose normalized content is empty makes the pipeline exit
successfully with zero network calls and no output action. -/
theorem c9_empty_input_short_circuit (hasOut : Bool)
    (oracle : Nat → Except TransFail RStr) (raw : RStr)
    (h : replaceCRLF raw = []) :
    runMain hasOut oracle raw = ⟨true, 0, .noOutput⟩ := by
  simp [runMain, h]

/-- C9 witness: the empty input file exits successfully, performing no
network call and writing nothing. -/
theorem c9_empty_input_short_circuit_witness :
    runMain true (fun _ => .error (.exhausted none)) [] = ⟨true, 0, .noOutput⟩ :=
  c9_empty_input_short_circuit true (fun _ => .error (.exhausted none)) [] rfl

/-- C10: a non-empty input consisting only of blank paragraphs does not take
the empty-input short-circuit: it yields zero chunks and zero network calls,
yet still produces output — an empty file write when an output path is
given, an empty console banner otherwise. -/
theorem c10_blank_input_empty_output (hasOut : Bool)
    (oracle : Nat → Except TransFail RStr) (raw : RStr)
    (hne : (replaceCRLF raw).isEmpty = false)
    (hblank : (splitParas (replaceCRLF raw)).filter (fun p => !(trim p).isEmpty) = []) :
    runMain hasOut oracle raw =
      ⟨true, 0, if hasOut then .fileWrite [] else .console []⟩ := by
  have hch : chunk MAX_CHUNK_SIZE (by decide) (replaceCRLF raw) = some [] := by
    simp only [chunk, hblank]
    rfl
  simp only [runMain, hne, Bool.false_eq_true, if_false, hch]
  rfl

/-- C10 witness: the input `"\n\n \n\n"` is non-empty but all-blank; with an
output path it writes an empty file, without one it prints an empty
translation — in both cases with zero network calls. -/
theorem c10_blank_input_empty_output_witness :
    runMain true (fun _ => .error (.exhausted none)) ['\n', '\n', ' ', '\n', '\n'] =
        ⟨true, 0, .fileWrite []⟩ ∧
      runMain false (fun _ => .error (.exhausted none)) ['\n', '\n', ' ', '\n', '\n'] =
        ⟨true, 0, .console []⟩ :=
  ⟨c10_blank_input_empty_output true (fun _ => .error (.exhausted none))
      ['\n', '\n', ' ', '\n', '\n'] (by decide) (by decide),
    c10_blank_input_empty_output false (fun _ => .error (.exhausted none))
      ['\n', '\n', ' ', '\n', '\n'] (by decide) (by decide)⟩
